import Mathlib

/-
Verification of the stack-trace interoperability layer in
github.com/cockroachdb/errors/withstack (file reportable.go).

Strings are embedded as lists of characters (`GoStr`).  All the string
primitives used by the source (strings.TrimSpace, strings.Split on "\n",
strings.LastIndex, strings.LastIndexByte, strings.HasPrefix "\t",
strings.Replace, strconv.Atoi) are embedded below, each one next to a
comment naming the Go function it models.  The searched patterns are all
ASCII or a single code point, so a character-level embedding agrees with
Go's byte-level one on valid UTF-8 input.
-/

/-- Go strings, embedded as lists of characters. -/
abbrev GoStr := List Char

/-- Code points satisfying Go's unicode.IsSpace (the Unicode White_Space
property): HT LF VT FF CR SP NEL NBSP plus the higher space code points. -/
def goSpaceCodes : List Nat :=
  [9, 10, 11, 12, 13, 32, 0x85, 0xA0, 0x1680,
   0x2000, 0x2001, 0x2002, 0x2003, 0x2004, 0x2005, 0x2006, 0x2007,
   0x2008, 0x2009, 0x200A, 0x2028, 0x2029, 0x202F, 0x205F, 0x3000]

/-- Embedding of Go's unicode.IsSpace. -/
def goIsSpace (c : Char) : Bool := goSpaceCodes.contains c.toNat

/-- Embedding of Go's strings.TrimSpace: drop leading and trailing
whitespace. -/
def goTrimSpace (s : GoStr) : GoStr :=
  ((s.dropWhile goIsSpace).reverse.dropWhile goIsSpace).reverse

/-- Embedding of Go's strings.Split(s, "\n") (the separator is the single
newline character): Go returns count(sep)+1 parts, so the result is never
empty; splitting the empty string yields one empty part. -/
def goSplitNl : GoStr → List GoStr
  | [] => [[]]
  | c :: rest =>
    if c = '\n' then [] :: goSplitNl rest
    else
      match goSplitNl rest with
      | [] => [[c]]
      | r0 :: rs => (c :: r0) :: rs

/-- Embedding of Go's strings.LastIndex(s, sub): the largest index at which
sub occurs as a substring of s, `none` standing for Go's -1.  Also serves
for strings.LastIndexByte, via a one-character sub. -/
def stringsLastIndex (s sub : GoStr) : Option Nat :=
  match s with
  | [] => if sub = [] then some 0 else none
  | _ :: rest =>
    match stringsLastIndex rest sub with
    | some k => some (k + 1)
    | none => if s.take sub.length = sub then some 0 else none

/-- The root marker constant `src` from trimPath in reportable.go. -/
def srcMarker : GoStr := ("/src/").data

/-- Embedding of trimPath from reportable.go: everything after the last
occurrence of "/src/", or the input unchanged when there is none. -/
def trimPath (filename : GoStr) : GoStr :=
  match stringsLastIndex filename srcMarker with
  | none => filename
  | some p => filename.drop (p + srcMarker.length)

/-- The middle-dot code point U+00B7 used by the Go runtime's
anonymous-function naming convention. -/
def middleDot : Char := Char.ofNat 0xB7

/-- Embedding of strings.Replace(name, "·", ".", -1): the pattern is a
single code point, so replacing every occurrence is a character map. -/
def replaceMidDot (s : GoStr) : GoStr :=
  s.map (fun c => if c = middleDot then '.' else c)

/-- Embedding of functionName from reportable.go: split at the last '.',
package before it, function after it (whole string when absent), then
normalize middle dots in the function part. -/
def functionName (fnName : GoStr) : GoStr × GoStr :=
  match stringsLastIndex fnName (['.']) with
  | none => ([], replaceMidDot fnName)
  | some idx => (fnName.take idx, replaceMidDot (fnName.drop (idx + 1)))

/-- Body of a strconv.Atoi input after the optional leading sign. -/
def atoiBody (s : GoStr) : GoStr :=
  match s with
  | c :: rest => if c = '-' ∨ c = '+' then rest else s
  | [] => []

/-- Whether a strconv.Atoi input carries a leading minus sign. -/
def atoiIsNeg (s : GoStr) : Bool :=
  match s with
  | c :: _ => c == '-'
  | [] => false

/-- Whether strconv.Atoi succeeds syntactically: an optional sign followed
by at least one ASCII digit and nothing else; otherwise Atoi reports
ErrSyntax and its value result is 0. -/
def atoiOk (s : GoStr) : Bool :=
  !(atoiBody s).isEmpty && (atoiBody s).all Char.isDigit

/-- Base-10 value of a digit string, as in strconv's accumulation loop. -/
def digitsVal (s : GoStr) : Nat :=
  s.foldl (fun n c => n * 10 + (c.toNat - 48)) 0

/-- Largest value of Go's 64-bit int. -/
def maxInt64 : Int := 2 ^ 63 - 1

/-- Smallest value of Go's 64-bit int. -/
def minInt64 : Int := -(2 ^ 63)

/-- Embedding of the value component of strconv.Atoi(s) with the error
discarded, as in `line, _ = strconv.Atoi(lineStr)`: 0 on a syntax error,
and the value clamped to the int64 range on a range error (ParseInt
returns the clamped value together with ErrRange). -/
def strconvAtoiVal (s : GoStr) : Int :=
  if atoiOk s then
    let m : Int := (digitsVal (atoiBody s) : Int)
    let v : Int := if atoiIsNeg s then -m else m
    if maxInt64 < v then maxInt64 else if v < minInt64 then minInt64 else v
  else 0

/-- Embedding of raven.StacktraceFrame, restricted to the fields written
by reportable.go. -/
structure StacktraceFrame where
  absolutePath : GoStr
  filename : GoStr
  lineno : Int
  inApp : Bool
  module : GoStr
  function : GoStr
deriving DecidableEq, Inhabited

/-- Embedding of raven.Stacktrace (ReportableStackTrace). -/
structure ReportableStackTrace where
  frames : List StacktraceFrame
deriving DecidableEq, Inhabited

/-- Embedding of parsePrintedStackEntry from reportable.go.  The function
name sits on line i; when the next line exists and starts with a tab, its
trimmed content is split at the last ':' into file path and line number.
The source indexes lines[i] and lines[i+1] directly under the caller's
bound and the guard; `getD` with default [] stands for those accesses. -/
def parsePrintedStackEntry (lines : List GoStr) (i : Nat) : Nat × GoStr × Int × GoStr :=
  let fnName := lines.getD i []
  if i < lines.length - 1 ∧ (lines.getD (i + 1) []).head? = some '\t' then
    let fileLine := goTrimSpace (lines.getD (i + 1) [])
    match stringsLastIndex fileLine ([':']) with
    | none => (i + 1, fileLine, 0, fnName)
    | some lineSep =>
      (i + 1, fileLine.take lineSep, strconvAtoiVal (fileLine.drop (lineSep + 1)), fnName)
  else (i, [], 0, fnName)

/-- Frame composition step of the loop body in parsePrintedStack: the
frame starts with Module "unknown" and Function fnName, and functionName
refines both fields unless fnName is exactly "unknown". -/
def mkStackFrame (file : GoStr) (line : Int) (fnName : GoStr) : StacktraceFrame :=
  let base : StacktraceFrame :=
    { absolutePath := file, filename := trimPath file, lineno := line,
      inApp := false, module := ("unknown").data, function := fnName }
  if fnName = ("unknown").data then base
  else { base with module := (functionName fnName).1, function := (functionName fnName).2 }

/-- Loop of parsePrintedStack, with an explicit iteration bound: the Go
for-loop advances i by at least one per iteration, so lines.length
iterations always suffice; parseLoopAux_fuel_irrel below proves the bound
plays no role beyond termination. -/
def parseLoopAux (lines : List GoStr) : Nat → Nat → List StacktraceFrame
  | 0, _ => []
  | fuel + 1, i =>
    if i < lines.length then
      let e := parsePrintedStackEntry lines i
      mkStackFrame e.2.1 e.2.2.1 e.2.2.2 :: parseLoopAux lines fuel (e.1 + 1)
    else []

/-- The frame-collection loop of parsePrintedStack, in textual order
(before the final reversal). -/
def parseLoop (lines : List GoStr) : List StacktraceFrame :=
  parseLoopAux lines lines.length 0

/-- Embedding of parsePrintedStack from reportable.go: trim, split into
lines, collect one frame per logical entry, return nil for an empty
collection (`frames == nil`), else the collected frames reversed. -/
def parsePrintedStack (st : GoStr) : Option ReportableStackTrace :=
  let lines := goSplitNl (goTrimSpace st)
  let frames := parseLoop lines
  if frames = [] then none else some ⟨frames.reverse⟩

/-- Modelled from the spec: one opaque call site of a foreign structured
trace (pkg/errors StackTrace), carrying what its canonical text rendering
shows — function name, file and line. -/
structure PkgFrame where
  name : GoStr
  file : GoStr
  line : Nat
deriving DecidableEq

/-- Decimal digits of a natural number, for the %+v rendering of a line
number. -/
def natToDigits (n : Nat) : GoStr := Nat.toDigits 10 n

/-- Modelled from the spec: the canonical multi-line text form of one
structured call site, "\n<function>\n\t<file>:<line>", as printed by the
foreign library's %+v formatting (the library itself is outside src/):
a newline separates call sites, so each logical entry sits on its own
one or two physical lines, and the heading newline of the whole
rendering is removed by the parser's TrimSpace. -/
def renderPkgFrame (f : PkgFrame) : GoStr :=
  '\n' :: (f.name ++ '\n' :: '\t' :: (f.file ++ ':' :: natToDigits f.line))

/-- Modelled from the spec: %+v rendering of a whole structured trace,
concatenating the rendering of each call site. -/
def renderPkgStack (st : List PkgFrame) : GoStr :=
  (st.map renderPkgFrame).flatten

/-- Embedding of convertPkgStack from reportable.go: nil for an empty
structured trace, otherwise the whole trace is rendered to text and
delegated to parsePrintedStack. -/
def convertPkgStack (st : List PkgFrame) : Option ReportableStackTrace :=
  if st.length = 0 then none else parsePrintedStack (renderPkgStack st)

/-- Modelled from the spec: the Origin Marker registered at process start
for the foreign library's plain trace kind (errbase.TypeKey of
pkgErr.New; errbase is outside src/, so the tag is an opaque constant). -/
def pkgFundamental : GoStr := ("pkgErr.fundamental").data

/-- Modelled from the spec: the Origin Marker for the foreign library's
added-frame wrapper kind (errbase.TypeKey of pkgErr.WithStack). -/
def pkgWithStackName : GoStr := ("pkgErr.withStack").data

/-- Modelled from the spec: the Origin Marker for this package's own
wrapping primitive (errbase.TypeKey of withstack.WithStack). -/
def ourWithStackName : GoStr := ("withstack.withStack").data

/-- Modelled from the spec: the capabilities of an error value that
GetReportableStackTrace probes — an optional structured-trace capability
(the StackTrace() type assertion), an optional safe-detail-strings
capability (the errbase.SafeDetailer type assertion), and the kind
identity (errbase.GetTypeKey, always available). -/
structure ErrValue where
  stackTrace : Option (List PkgFrame)
  safeDetails : Option (List GoStr)
  typeKey : GoStr
deriving DecidableEq

/-- Embedding of GetReportableStackTrace from reportable.go: a structured
trace wins; else safe details with a recognized kind identity send detail
string 0 to the text parser; else nil. -/
def GetReportableStackTrace (err : ErrValue) : Option ReportableStackTrace :=
  match err.stackTrace with
  | some st => convertPkgStack st
  | none =>
    match err.safeDetails with
    | some details =>
      if 0 < details.length ∧
          (err.typeKey = pkgFundamental ∨ err.typeKey = pkgWithStackName ∨
           err.typeKey = ourWithStackName) then
        parsePrintedStack (details.getD 0 [])
      else none
    | none => none

/-- Splitting never yields an empty list of lines: Go's strings.Split
returns count(sep)+1 parts. -/
theorem goSplitNl_ne_nil (s : GoStr) : goSplitNl s ≠ [] := by
  cases s with
  | nil => simp [goSplitNl]
  | cons c rest =>
    simp only [goSplitNl]
    split
    · simp
    · split <;> simp

/-- A successful stringsLastIndex points at an occurrence of sub. -/
theorem stringsLastIndex_occ (s sub : GoStr) (k : Nat)
    (h : stringsLastIndex s sub = some k) :
    (s.drop k).take sub.length = sub := by
  induction s generalizing k with
  | nil =>
    by_cases hsub : sub = []
    · subst hsub; simp
    · simp only [stringsLastIndex, if_neg hsub] at h
      exact Option.noConfusion h
  | cons a rest ih =>
    cases hrec : stringsLastIndex rest sub with
    | some k' =>
      simp only [stringsLastIndex, hrec] at h
      injection h with h
      subst h
      simpa using ih k' hrec
    | none =>
      simp only [stringsLastIndex, hrec] at h
      by_cases htake : (a :: rest).take sub.length = sub
      · simp only [if_pos htake] at h
        injection h with h
        subst h
        simpa using htake
      · simp only [if_neg htake] at h
        exact Option.noConfusion h

/-- A failed stringsLastIndex means sub occurs nowhere in s. -/
theorem stringsLastIndex_no_occ (s sub : GoStr)
    (h : stringsLastIndex s sub = none) :
    ∀ j, (s.drop j).take sub.length ≠ sub := by
  induction s with
  | nil =>
    intro j
    by_cases hsub : sub = []
    · simp only [stringsLastIndex, if_pos hsub] at h
      exact Option.noConfusion h
    · intro hc
      exact hsub (by simpa using hc.symm)
  | cons a rest ih =>
    intro j
    cases hrec : stringsLastIndex rest sub with
    | some k' =>
      simp only [stringsLastIndex, hrec] at h
      exact Option.noConfusion h
    | none =>
      simp only [stringsLastIndex, hrec] at h
      by_cases htake : (a :: rest).take sub.length = sub
      · simp only [if_pos htake] at h
        exact Option.noConfusion h
      · cases j with
        | zero => simpa using htake
        | succ j' => simpa using ih hrec j'

/-- stringsLastIndex finds the last occurrence: no occurrence lies
strictly beyond the returned index. -/
theorem stringsLastIndex_max (s sub : GoStr) (k : Nat) (hsub : sub ≠ [])
    (h : stringsLastIndex s sub = some k) :
    ∀ j, k < j → (s.drop j).take sub.length ≠ sub := by
  induction s generalizing k with
  | nil =>
    simp only [stringsLastIndex, if_neg hsub] at h
    exact Option.noConfusion h
  | cons a rest ih =>
    cases hrec : stringsLastIndex rest sub with
    | some k' =>
      simp only [stringsLastIndex, hrec] at h
      injection h with h
      subst h
      intro j hj
      cases j with
      | zero => omega
      | succ j' => simpa using ih k' hrec j' (by omega)
    | none =>
      simp only [stringsLastIndex, hrec] at h
      by_cases htake : (a :: rest).take sub.length = sub
      · simp only [if_pos htake] at h
        injection h with h
        subst h
        intro j hj
        cases j with
        | zero => omega
        | succ j' => simpa using stringsLastIndex_no_occ rest sub hrec j'
      · simp only [if_neg htake] at h
        exact Option.noConfusion h

/-- An occurrence of a nonempty sub at k decomposes s around it, and the
occurrence fits inside s. -/
theorem occ_decomp (s sub : GoStr) (k : Nat) (hsub : sub ≠ [])
    (h : (s.drop k).take sub.length = sub) :
    s = s.take k ++ sub ++ s.drop (k + sub.length) ∧ k + sub.length ≤ s.length := by
  have hlen : ((s.drop k).take sub.length).length = sub.length := by rw [h]
  rw [List.length_take, List.length_drop] at hlen
  have hpos : 0 < sub.length := List.length_pos.mpr hsub
  have hk : k + sub.length ≤ s.length := by omega
  refine ⟨?_, hk⟩
  calc s = s.take k ++ s.drop k := (List.take_append_drop k s).symm
    _ = s.take k ++ ((s.drop k).take sub.length ++ (s.drop k).drop sub.length) := by
          congr 1
          rw [List.take_append_drop]
    _ = s.take k ++ sub ++ s.drop (k + sub.length) := by
          rw [h, List.drop_drop, List.append_assoc]

/-- An occurrence of a one-character sub is a membership. -/
theorem mem_of_occ_single (s : GoStr) (c : Char) (j : Nat)
    (h : (s.drop j).take 1 = [c]) : c ∈ s := by
  have h1 : c ∈ (s.drop j).take 1 := by rw [h]; exact List.mem_singleton_self c
  exact List.drop_subset j s (List.take_subset 1 (s.drop j) h1)

/-- A membership gives an occurrence of the one-character sub. -/
theorem occ_single_of_mem (s : GoStr) (c : Char) (h : c ∈ s) :
    ∃ j, (s.drop j).take 1 = [c] := by
  induction s with
  | nil => cases h
  | cons a rest ih =>
    rcases List.mem_cons.mp h with h | h
    · subst h
      exact ⟨0, by simp⟩
    · rcases ih h with ⟨j, hj⟩
      exact ⟨j + 1, by simpa using hj⟩

/-- A character absent from s is not found by stringsLastIndex. -/
theorem stringsLastIndex_single_none (s : GoStr) (c : Char)
    (h : ∀ x, x ∈ s → x ≠ c) : stringsLastIndex s ([c]) = none := by
  cases hk : stringsLastIndex s ([c]) with
  | none => rfl
  | some k =>
    have hocc := stringsLastIndex_occ s ([c]) k hk
    have hc : c ∈ s := mem_of_occ_single s c k (by simpa using hocc)
    exact absurd rfl (h c hc)

/-- A character present in s is found by stringsLastIndex. -/
theorem stringsLastIndex_single_some (s : GoStr) (c : Char) (h : c ∈ s) :
    ∃ k, stringsLastIndex s ([c]) = some k := by
  cases hk : stringsLastIndex s ([c]) with
  | some k => exact ⟨k, rfl⟩
  | none =>
    rcases occ_single_of_mem s c h with ⟨j, hj⟩
    exact absurd (by simpa using hj) (stringsLastIndex_no_occ s ([c]) hk j)

/-- Any occurrence of sub forces stringsLastIndex to succeed. -/
theorem stringsLastIndex_some_of_occ (s sub : GoStr)
    (h : ∃ j, (s.drop j).take sub.length = sub) :
    ∃ k, stringsLastIndex s sub = some k := by
  rcases h with ⟨j, hj⟩
  cases hk : stringsLastIndex s sub with
  | some k => exact ⟨k, rfl⟩
  | none => exact absurd hj (stringsLastIndex_no_occ s sub hk j)

/-- After the index found for a one-character sub, that character no
longer appears. -/
theorem lastIndex_single_no_later (s : GoStr) (c : Char) (k : Nat)
    (hk : stringsLastIndex s ([c]) = some k) :
    ∀ x, x ∈ s.drop (k + 1) → x ≠ c := by
  intro x hx heq
  subst heq
  rcases occ_single_of_mem (s.drop (k + 1)) x hx with ⟨j, hj⟩
  rw [List.drop_drop] at hj
  have hmax := stringsLastIndex_max s ([x]) k (by simp) hk (k + 1 + j) (by omega)
  simp only [List.length_cons, List.length_nil] at hmax
  exact hmax (by simpa using hj)

/-- Characters surviving dropWhile were in the original list. -/
theorem dropWhile_mem {p : Char → Bool} {s : GoStr} {c : Char}
    (h : c ∈ s.dropWhile p) : c ∈ s := by
  induction s with
  | nil => simp at h
  | cons a rest ih =>
    rw [List.dropWhile_cons] at h
    split at h
    · exact List.mem_cons_of_mem a (ih h)
    · exact h

/-- Characters of a trimmed string come from the original string. -/
theorem mem_of_mem_goTrimSpace {s : GoStr} {c : Char}
    (h : c ∈ goTrimSpace s) : c ∈ s := by
  unfold goTrimSpace at h
  rw [List.mem_reverse] at h
  have h1 := dropWhile_mem h
  rw [List.mem_reverse] at h1
  exact dropWhile_mem h1

/-- Characters of any produced line come from the split string. -/
theorem mem_of_mem_goSplitNl {s : GoStr} : ∀ {l : GoStr} {c : Char},
    l ∈ goSplitNl s → c ∈ l → c ∈ s := by
  induction s with
  | nil =>
    intro l c hl hc
    simp only [goSplitNl, List.mem_singleton] at hl
    subst hl
    cases hc
  | cons a rest ih =>
    intro l c hl hc
    simp only [goSplitNl] at hl
    by_cases ha : a = '\n'
    · rw [if_pos ha] at hl
      rcases List.mem_cons.mp hl with rfl | hl
      · cases hc
      · exact List.mem_cons_of_mem a (ih hl hc)
    · rw [if_neg ha] at hl
      cases hrec : goSplitNl rest with
      | nil => exact absurd hrec (goSplitNl_ne_nil rest)
      | cons r0 rs =>
        rw [hrec] at hl
        rcases List.mem_cons.mp hl with rfl | hl
        · rcases List.mem_cons.mp hc with rfl | hc2
          · exact List.mem_cons_self c rest
          · refine List.mem_cons_of_mem a (ih ?_ hc2)
            rw [hrec]
            exact List.mem_cons_self r0 rs
        · refine List.mem_cons_of_mem a (ih ?_ hc)
          rw [hrec]
          exact List.mem_cons_of_mem r0 hl

/-- getD at an in-bounds index returns an element of the list. -/
theorem list_getD_mem {α : Type} {l : List α} {i : Nat} (h : i < l.length) (d : α) :
    l.getD i d ∈ l := by
  induction l generalizing i with
  | nil => simp at h
  | cons a t ih =>
    cases i with
    | zero => simp [List.getD]
    | succ i' =>
      have hi : i' < t.length := by simpa using h
      exact List.mem_cons_of_mem a (ih hi)

/-- getD indexing into a reversed list reads from the mirrored index. -/
theorem list_getD_reverse {α : Type} [Inhabited α] (l : List α) (i : Nat)
    (h : i < l.length) :
    l.reverse.getD i default = l.getD (l.length - 1 - i) default := by
  have h1 : i < l.reverse.length := by simpa using h
  have h2 : l.length - 1 - i < l.length := by omega
  rw [List.getD_eq_getElem l.reverse default h1, List.getD_eq_getElem l default h2]
  exact List.getElem_reverse h1

/-- Zeta-expanded form of parsePrintedStackEntry, for case reasoning. -/
theorem entry_eq (lines : List GoStr) (i : Nat) :
    parsePrintedStackEntry lines i =
      if i < lines.length - 1 ∧ (lines.getD (i + 1) []).head? = some '\t' then
        match stringsLastIndex (goTrimSpace (lines.getD (i + 1) [])) ([':']) with
        | none => (i + 1, goTrimSpace (lines.getD (i + 1) []), 0, lines.getD i [])
        | some lineSep =>
          (i + 1, (goTrimSpace (lines.getD (i + 1) [])).take lineSep,
            strconvAtoiVal ((goTrimSpace (lines.getD (i + 1) [])).drop (lineSep + 1)),
            lines.getD i [])
      else (i, [], 0, lines.getD i []) := rfl

/-- Entry outcome when the lookahead guard fails: one line consumed,
empty file, line number 0. -/
theorem entry_eq_noguard (lines : List GoStr) (i : Nat)
    (h : ¬(i < lines.length - 1 ∧ (lines.getD (i + 1) []).head? = some '\t')) :
    parsePrintedStackEntry lines i = (i, [], 0, lines.getD i []) := by
  rw [entry_eq, if_neg h]

/-- Entry outcome when the tab line exists but holds no colon: the whole
trimmed content is the file, line number 0. -/
theorem entry_eq_nocolon (lines : List GoStr) (i : Nat)
    (h : i < lines.length - 1 ∧ (lines.getD (i + 1) []).head? = some '\t')
    (hk : stringsLastIndex (goTrimSpace (lines.getD (i + 1) [])) ([':']) = none) :
    parsePrintedStackEntry lines i =
      (i + 1, goTrimSpace (lines.getD (i + 1) []), 0, lines.getD i []) := by
  rw [entry_eq, if_pos h, hk]

/-- Entry outcome when the tab line exists and holds a colon: split at
the last colon, Atoi of the suffix. -/
theorem entry_eq_colon (lines : List GoStr) (i : Nat) (k : Nat)
    (h : i < lines.length - 1 ∧ (lines.getD (i + 1) []).head? = some '\t')
    (hk : stringsLastIndex (goTrimSpace (lines.getD (i + 1) [])) ([':']) = some k) :
    parsePrintedStackEntry lines i =
      (i + 1, (goTrimSpace (lines.getD (i + 1) [])).take k,
        strconvAtoiVal ((goTrimSpace (lines.getD (i + 1) [])).drop (k + 1)),
        lines.getD i []) := by
  rw [entry_eq, if_pos h, hk]

/-- The scan pointer never moves backwards. -/
theorem entry_fst_ge (lines : List GoStr) (i : Nat) :
    i ≤ (parsePrintedStackEntry lines i).1 := by
  by_cases hg : i < lines.length - 1 ∧ (lines.getD (i + 1) []).head? = some '\t'
  · cases hk : stringsLastIndex (goTrimSpace (lines.getD (i + 1) [])) ([':']) with
    | none => rw [entry_eq_nocolon lines i hg hk]; omega
    | some k => rw [entry_eq_colon lines i k hg hk]; omega
  · rw [entry_eq_noguard lines i hg]

/-- The scan pointer advances by at most one inside an entry. -/
theorem entry_fst_le (lines : List GoStr) (i : Nat) :
    (parsePrintedStackEntry lines i).1 ≤ i + 1 := by
  by_cases hg : i < lines.length - 1 ∧ (lines.getD (i + 1) []).head? = some '\t'
  · cases hk : stringsLastIndex (goTrimSpace (lines.getD (i + 1) [])) ([':']) with
    | none => rw [entry_eq_nocolon lines i hg hk]
    | some k => rw [entry_eq_colon lines i k hg hk]
  · rw [entry_eq_noguard lines i hg]; omega

/-- From an in-bounds position the scan pointer stays in bounds: a
two-line entry is taken only under the guard i < length - 1. -/
theorem entry_fst_lt (lines : List GoStr) (i : Nat) (h : i < lines.length) :
    (parsePrintedStackEntry lines i).1 < lines.length := by
  by_cases hg : i < lines.length - 1 ∧ (lines.getD (i + 1) []).head? = some '\t'
  · have h1 := hg.1
    cases hk : stringsLastIndex (goTrimSpace (lines.getD (i + 1) [])) ([':']) with
    | none => rw [entry_eq_nocolon lines i hg hk]; simp; omega
    | some k => rw [entry_eq_colon lines i k hg hk]; simp; omega
  · rw [entry_eq_noguard lines i hg]; simpa using h

/-- Past the end of the lines the loop produces nothing. -/
theorem parseLoopAux_stop {lines : List GoStr} {i : Nat} (h : lines.length ≤ i) :
    ∀ fuel, parseLoopAux lines fuel i = [] := by
  intro fuel
  cases fuel with
  | zero => rfl
  | succ f =>
    simp only [parseLoopAux]
    rw [if_neg (by omega)]

/-- The iteration bound of parseLoopAux is irrelevant once it covers the
remaining lines, since each entry advances the position by at least one:
the embedded loop computes the same frames as the unbounded Go loop. -/
theorem parseLoopAux_fuel_irrel (lines : List GoStr) :
    ∀ f1 f2 i, lines.length - i ≤ f1 → lines.length - i ≤ f2 →
      parseLoopAux lines f1 i = parseLoopAux lines f2 i := by
  intro f1
  induction f1 with
  | zero =>
    intro f2 i h1 h2
    have hi : lines.length ≤ i := by omega
    rw [parseLoopAux_stop hi, parseLoopAux_stop hi]
  | succ f ih =>
    intro f2 i h1 h2
    by_cases hi : i < lines.length
    · cases f2 with
      | zero => omega
      | succ g =>
        simp only [parseLoopAux]
        rw [if_pos hi, if_pos hi]
        have hge := entry_fst_ge lines i
        congr 1
        exact ih g ((parsePrintedStackEntry lines i).1 + 1) (by omega) (by omega)
    · rw [parseLoopAux_stop (by omega), parseLoopAux_stop (by omega)]

/-- The composed frame carries exactly the line number of its entry. -/
theorem mkStackFrame_lineno (file : GoStr) (line : Int) (fnName : GoStr) :
    (mkStackFrame file line fnName).lineno = line := by
  unfold mkStackFrame
  split <;> rfl

/-- The discarded-error value of strconv.Atoi is nonnegative whenever the
input has no minus sign. -/
theorem strconvAtoiVal_nonneg {s : GoStr} (h : ∀ c, c ∈ s → c ≠ '-') :
    0 ≤ strconvAtoiVal s := by
  have hneg : atoiIsNeg s = false := by
    unfold atoiIsNeg
    cases s with
    | nil => rfl
    | cons c rest =>
      have hc := h c (List.mem_cons_self c rest)
      simp [hc]
  have h0 : (0 : Int) ≤ (digitsVal (atoiBody s) : Int) := Int.natCast_nonneg _
  have hM : (0 : Int) ≤ maxInt64 := by unfold maxInt64; norm_num
  have hm : minInt64 < 0 := by unfold minInt64; norm_num
  unfold strconvAtoiVal
  rw [hneg]
  simp only [Bool.false_eq_true, if_false]
  split
  · split
    · exact hM
    · split
      · omega
      · exact h0
  · exact le_refl 0

/-- The line number of an entry is either the default 0 or the Atoi value
of a suffix of the trimmed lookahead line. -/
theorem entry_lineno_cases (lines : List GoStr) (i : Nat) :
    (parsePrintedStackEntry lines i).2.2.1 = 0 ∨
    (i + 1 < lines.length ∧ ∃ sfx : GoStr,
      (∀ c, c ∈ sfx → c ∈ lines.getD (i + 1) []) ∧
      (parsePrintedStackEntry lines i).2.2.1 = strconvAtoiVal sfx) := by
  by_cases hg : i < lines.length - 1 ∧ (lines.getD (i + 1) []).head? = some '\t'
  · cases hk : stringsLastIndex (goTrimSpace (lines.getD (i + 1) [])) ([':']) with
    | none => rw [entry_eq_nocolon lines i hg hk]; left; rfl
    | some k =>
      rw [entry_eq_colon lines i k hg hk]
      right
      refine ⟨by have := hg.1; omega,
        (goTrimSpace (lines.getD (i + 1) [])).drop (k + 1), ?_, rfl⟩
      intro c hcm
      exact mem_of_mem_goTrimSpace (List.drop_subset _ _ hcm)
  · rw [entry_eq_noguard lines i hg]; left; rfl

/-- Every frame collected by the loop has a nonnegative line number when
no line of the input contains a minus sign. -/
theorem parseLoopAux_lineno_nonneg {lines : List GoStr}
    (hl : ∀ l, l ∈ lines → ∀ c, c ∈ l → c ≠ '-') :
    ∀ fuel i fr, fr ∈ parseLoopAux lines fuel i → 0 ≤ fr.lineno := by
  intro fuel
  induction fuel with
  | zero => intro i fr hfr; cases hfr
  | succ f ih =>
    intro i fr hfr
    simp only [parseLoopAux] at hfr
    by_cases hi : i < lines.length
    · rw [if_pos hi] at hfr
      rcases List.mem_cons.mp hfr with rfl | h2
      · rw [mkStackFrame_lineno]
        rcases entry_lineno_cases lines i with h0 | ⟨hlt, sfx, hmem, heq⟩
        · rw [h0]
        · rw [heq]
          apply strconvAtoiVal_nonneg
          intro c hcm
          exact hl (lines.getD (i + 1) []) (list_getD_mem hlt []) c (hmem c hcm)
      · exact ih _ fr h2
    · rw [if_neg hi] at hfr
      cases hfr

/-- Claim C1 evaluation: parsing an empty or all-whitespace string does
NOT yield "no trace" — Go's strings.Split returns one empty line for the
trimmed empty string, so the loop emits one frame with empty function,
module and path fields; in fact the parser never returns nil on any
input, so the zero-entries guard (`frames == nil`) is unreachable. -/
theorem c1_empty_input_evaluation :
    parsePrintedStack [] =
      some ⟨[{ absolutePath := [], filename := [], lineno := 0, inApp := false,
               module := [], function := [] }]⟩ ∧
    parsePrintedStack ((" \n\t\n ").data) =
      some ⟨[{ absolutePath := [], filename := [], lineno := 0, inApp := false,
               module := [], function := [] }]⟩ ∧
    ∀ s : GoStr, (parsePrintedStack s).isSome = true := by
  refine ⟨by decide, by decide, ?_⟩
  intro s
  have step : parsePrintedStack s =
      if parseLoop (goSplitNl (goTrimSpace s)) = [] then none
      else some ⟨(parseLoop (goSplitNl (goTrimSpace s))).reverse⟩ := rfl
  rw [step]
  cases hl : goSplitNl (goTrimSpace s) with
  | nil => exact absurd hl (goSplitNl_ne_nil _)
  | cons l0 ls =>
    have hne : parseLoop (l0 :: ls) ≠ [] := by
      unfold parseLoop
      simp only [List.length_cons, parseLoopAux]
      rw [if_pos (by simp)]
      simp
    rw [if_neg hne]
    rfl

/-- Claim C2: the Trace Resolver applies exactly three checks in order
with first match winning — a structured StackTrace capability dispatches
to convertPkgStack; otherwise safe details with at least one string and a
kind identity among the three Origin Markers dispatch parsePrintedStack
on detail string 0; otherwise nil — and it is a total function. -/
theorem c2_resolver_dispatch :
    ∀ e : ErrValue,
      (∀ st, e.stackTrace = some st →
        GetReportableStackTrace e = convertPkgStack st) ∧
      (e.stackTrace = none →
        ∀ d, e.safeDetails = some d → 0 < d.length →
        (e.typeKey = pkgFundamental ∨ e.typeKey = pkgWithStackName ∨
         e.typeKey = ourWithStackName) →
        GetReportableStackTrace e = parsePrintedStack (d.getD 0 [])) ∧
      (e.stackTrace = none → e.safeDetails = none →
        GetReportableStackTrace e = none) ∧
      (e.stackTrace = none →
        ∀ d, e.safeDetails = some d →
        ¬(0 < d.length ∧ (e.typeKey = pkgFundamental ∨
          e.typeKey = pkgWithStackName ∨ e.typeKey = ourWithStackName)) →
        GetReportableStackTrace e = none) := by
  intro e
  refine ⟨?_, ?_, ?_, ?_⟩
  · intro st h
    unfold GetReportableStackTrace
    rw [h]
  · intro h d hd hlen hkey
    unfold GetReportableStackTrace
    rw [h, hd]
    show (if 0 < d.length ∧ (e.typeKey = pkgFundamental ∨
        e.typeKey = pkgWithStackName ∨ e.typeKey = ourWithStackName) then
        parsePrintedStack (d.getD 0 []) else none) = parsePrintedStack (d.getD 0 [])
    rw [if_pos ⟨hlen, hkey⟩]
  · intro h hd
    unfold GetReportableStackTrace
    rw [h, hd]
  · intro h d hd hn
    unfold GetReportableStackTrace
    rw [h, hd]
    show (if 0 < d.length ∧ (e.typeKey = pkgFundamental ∨
        e.typeKey = pkgWithStackName ∨ e.typeKey = ourWithStackName) then
        parsePrintedStack (d.getD 0 []) else none) = none
    rw [if_neg hn]

/-- Claim C2 witness: a value exposing none of the capabilities yields
"no trace". -/
theorem c2_resolver_dispatch_witness :
    GetReportableStackTrace ⟨none, none, []⟩ = none :=
  (c2_resolver_dispatch ⟨none, none, []⟩).2.2.1 rfl rfl

/-- Claim C9: from an in-bounds scan position the entry parser keeps the
scan pointer in bounds — it never decreases, advances by at most one, and
never exceeds len(lines)-1, so the lookahead of lines[i+1] under the
guard i < len(lines)-1 stays in bounds and the whole parse is total. -/
theorem c9_entry_index_bounds :
    ∀ (lines : List GoStr) (i : Nat), i < lines.length →
      i ≤ (parsePrintedStackEntry lines i).1 ∧
      (parsePrintedStackEntry lines i).1 ≤ i + 1 ∧
      (parsePrintedStackEntry lines i).1 ≤ lines.length - 1 := by
  intro lines i hi
  refine ⟨entry_fst_ge lines i, entry_fst_le lines i, ?_⟩
  have := entry_fst_lt lines i hi
  omega

/-- Claim C9 witness: the bounds hold at a concrete two-line dump. -/
theorem c9_entry_index_bounds_witness :
    0 ≤ (parsePrintedStackEntry [("a").data, ("\tb:1").data] 0).1 ∧
    (parsePrintedStackEntry [("a").data, ("\tb:1").data] 0).1 ≤ 0 + 1 ∧
    (parsePrintedStackEntry [("a").data, ("\tb:1").data] 0).1 ≤
      [("a").data, ("\tb:1").data].length - 1 :=
  c9_entry_index_bounds [("a").data, ("\tb:1").data] 0 (by decide)

/-- Claim C6: an entry whose first line is exactly "unknown" with no
following tab-prefixed line consumes one line and yields the frame with
function "unknown", module "unknown", inApp false, line 0 and empty path
fields; parsing the dump "unknown" yields exactly that one frame. -/
theorem c6_unknown_entry :
    ∀ (lines : List GoStr) (i : Nat), i < lines.length →
      lines.getD i [] = ("unknown").data →
      ¬(i < lines.length - 1 ∧ (lines.getD (i + 1) []).head? = some '\t') →
      parsePrintedStackEntry lines i = (i, [], 0, ("unknown").data) ∧
      mkStackFrame [] 0 (("unknown").data) =
        { absolutePath := [], filename := [], lineno := 0, inApp := false,
          module := ("unknown").data, function := ("unknown").data } ∧
      parsePrintedStack (("unknown").data) =
        some ⟨[{ absolutePath := [], filename := [], lineno := 0, inApp := false,
                 module := ("unknown").data, function := ("unknown").data }]⟩ := by
  intro lines i _ hname hguard
  refine ⟨?_, by decide, by decide⟩
  rw [entry_eq_noguard lines i hguard, hname]

/-- Claim C6 witness: the entry-level statement instantiated at the
one-line dump "unknown". -/
theorem c6_unknown_entry_witness :
    parsePrintedStackEntry [("unknown").data] 0 = (0, [], 0, ("unknown").data) :=
  (c6_unknown_entry [("unknown").data] 0 (by decide) (by decide) (by decide)).1

/-- Claim C5: for a tab-prefixed second line, if the trimmed content has
no colon the whole content becomes the file path with line number 0, and
if the suffix after the last colon is not a syntactically valid integer
the line number is 0; in both cases the entry still yields values for a
frame (no failure). -/
theorem c5_second_line_fallbacks :
    ∀ (lines : List GoStr) (i : Nat),
      i < lines.length - 1 →
      (lines.getD (i + 1) []).head? = some '\t' →
      ((∀ c, c ∈ goTrimSpace (lines.getD (i + 1) []) → c ≠ ':') →
        parsePrintedStackEntry lines i =
          (i + 1, goTrimSpace (lines.getD (i + 1) []), 0, lines.getD i [])) ∧
      (∀ k, stringsLastIndex (goTrimSpace (lines.getD (i + 1) [])) ([':']) = some k →
        atoiOk ((goTrimSpace (lines.getD (i + 1) [])).drop (k + 1)) = false →
        parsePrintedStackEntry lines i =
          (i + 1, (goTrimSpace (lines.getD (i + 1) [])).take k, 0, lines.getD i [])) := by
  intro lines i h1 h2
  constructor
  · intro hnc
    exact entry_eq_nocolon lines i ⟨h1, h2⟩
      (stringsLastIndex_single_none (goTrimSpace (lines.getD (i + 1) [])) ':' hnc)
  · intro k hk hbad
    rw [entry_eq_colon lines i k ⟨h1, h2⟩ hk]
    have hz : strconvAtoiVal ((goTrimSpace (lines.getD (i + 1) [])).drop (k + 1)) = 0 := by
      unfold strconvAtoiVal
      rw [hbad]
      simp
    rw [hz]

/-- Claim C5 witness: a tab line with no colon becomes the file path with
line number 0. -/
theorem c5_second_line_fallbacks_witness :
    parsePrintedStackEntry [("f").data, ("\t/a/b").data] 0 =
      (1, ("/a/b").data, 0, ("f").data) :=
  ((c5_second_line_fallbacks [("f").data, ("\t/a/b").data] 0 (by decide)
      (by decide)).1 (by decide)).trans (by decide)

/-- Claim C3 counterexample: the dump "f\n\t/a:-1" produces a frame whose
line number is -1, which is negative — strconv.Atoi accepts a leading
minus sign, so line numbers below 0 are reachable. -/
theorem c3_negative_line_counterexample :
    parsePrintedStack (("f\n\t/a:-1").data) =
      some ⟨[{ absolutePath := ("/a").data, filename := ("/a").data, lineno := -1,
               inApp := false, module := [], function := ("f").data }]⟩ ∧
    ((-1 : Int) < 0) :=
  ⟨by decide, by decide⟩

/-- Claim C3 amended: every frame of a parsed trace has a nonnegative
line number provided the input contains no minus sign (in general the
line number equals the Atoi value of the suffix after the last colon,
which is negative exactly for minus-signed suffixes). -/
theorem c3_line_nonneg_amended :
    ∀ s : GoStr, (∀ c, c ∈ s → c ≠ '-') →
      ∀ t, parsePrintedStack s = some t → ∀ fr, fr ∈ t.frames → 0 ≤ fr.lineno := by
  intro s hs t ht fr hfr
  have hlines : ∀ l, l ∈ goSplitNl (goTrimSpace s) → ∀ c, c ∈ l → c ≠ '-' := by
    intro l hl c hc
    exact hs c (mem_of_mem_goTrimSpace (mem_of_mem_goSplitNl hl hc))
  have step : parsePrintedStack s =
      if parseLoop (goSplitNl (goTrimSpace s)) = [] then none
      else some ⟨(parseLoop (goSplitNl (goTrimSpace s))).reverse⟩ := rfl
  rw [step] at ht
  by_cases hne : parseLoop (goSplitNl (goTrimSpace s)) = []
  · rw [if_pos hne] at ht
    exact Option.noConfusion ht
  · rw [if_neg hne] at ht
    injection ht with ht
    subst ht
    have hfr2 : fr ∈ (parseLoop (goSplitNl (goTrimSpace s))).reverse := hfr
    rw [List.mem_reverse] at hfr2
    exact parseLoopAux_lineno_nonneg hlines _ _ fr hfr2

/-- Claim C3 amended witness: the amended statement applied to the dump
"f\n\t/a:12", whose single frame carries line number 12. -/
theorem c3_line_nonneg_amended_witness :
    (0 : Int) ≤
      (StacktraceFrame.mk (("/a").data) (("/a").data) 12 false [] (("f").data)).lineno :=
  c3_line_nonneg_amended (("f\n\t/a:12").data) (by decide)
    ⟨[StacktraceFrame.mk (("/a").data) (("/a").data) 12 false [] (("f").data)]⟩
    (by decide)
    (StacktraceFrame.mk (("/a").data) (("/a").data) 12 false [] (("f").data))
    (by decide)

/-- Claim C4: whenever the parse returns a trace, its frames are exactly
the collected entries in reverse — the same count, and frame i of the
output is the frame built from entry n-1-i of the text (oldest first). -/
theorem c4_frames_reversed :
    ∀ (s : GoStr) (t : ReportableStackTrace), parsePrintedStack s = some t →
      parseLoop (goSplitNl (goTrimSpace s)) ≠ [] ∧
      t.frames.length = (parseLoop (goSplitNl (goTrimSpace s))).length ∧
      t.frames = (parseLoop (goSplitNl (goTrimSpace s))).reverse ∧
      ∀ i, i < (parseLoop (goSplitNl (goTrimSpace s))).length →
        t.frames.getD i default =
          (parseLoop (goSplitNl (goTrimSpace s))).getD
            ((parseLoop (goSplitNl (goTrimSpace s))).length - 1 - i) default := by
  intro s t ht
  have step : parsePrintedStack s =
      if parseLoop (goSplitNl (goTrimSpace s)) = [] then none
      else some ⟨(parseLoop (goSplitNl (goTrimSpace s))).reverse⟩ := rfl
  rw [step] at ht
  by_cases hne : parseLoop (goSplitNl (goTrimSpace s)) = []
  · rw [if_pos hne] at ht
    exact Option.noConfusion ht
  · rw [if_neg hne] at ht
    injection ht with ht
    subst ht
    refine ⟨hne, by simp, rfl, ?_⟩
    intro i hi
    exact list_getD_reverse (parseLoop (goSplitNl (goTrimSpace s))) i hi

/-- Claim C4 witness: the reversal equation at the one-entry dump
"unknown". -/
theorem c4_frames_reversed_witness :
    (⟨[{ absolutePath := [], filename := [], lineno := 0, inApp := false,
         module := ("unknown").data, function := ("unknown").data }]⟩ :
      ReportableStackTrace).frames =
      (parseLoop (goSplitNl (goTrimSpace (("unknown").data)))).reverse :=
  (c4_frames_reversed (("unknown").data)
    ⟨[{ absolutePath := [], filename := [], lineno := 0, inApp := false,
        module := ("unknown").data, function := ("unknown").data }]⟩ (by decide)).2.2.1

/-- Claim C7: trimPath returns the input unchanged when "/src/" does not
occur in it; when it occurs, the result is the substring strictly after
the last occurrence, hence a proper suffix; and the two spec examples. -/
theorem c7_trimPath_spec :
    ∀ s : GoStr,
      ((¬ ∃ j, (s.drop j).take srcMarker.length = srcMarker) → trimPath s = s) ∧
      (∀ k, stringsLastIndex s srcMarker = some k →
        s = s.take k ++ srcMarker ++ trimPath s ∧
        (∀ j, k < j → (s.drop j).take srcMarker.length ≠ srcMarker) ∧
        (trimPath s).length < s.length ∧
        (∃ u : GoStr, u ≠ [] ∧ s = u ++ trimPath s)) ∧
      ((∃ j, (s.drop j).take srcMarker.length = srcMarker) →
        ∃ k, stringsLastIndex s srcMarker = some k) ∧
      trimPath (("/home/x/src/pkg/file.go").data) = ("pkg/file.go").data ∧
      trimPath (("/home/x/file.go").data) = ("/home/x/file.go").data := by
  intro s
  refine ⟨?_, ?_, stringsLastIndex_some_of_occ s srcMarker, by decide, by decide⟩
  · intro hno
    unfold trimPath
    cases hk : stringsLastIndex s srcMarker with
    | none => rfl
    | some k => exact absurd ⟨k, stringsLastIndex_occ s srcMarker k hk⟩ hno
  · intro k hk
    have hocc := stringsLastIndex_occ s srcMarker k hk
    have hdec := occ_decomp s srcMarker k (by decide) hocc
    have htp : trimPath s = s.drop (k + srcMarker.length) := by
      unfold trimPath
      rw [hk]
    refine ⟨?_, stringsLastIndex_max s srcMarker k (by decide) hk, ?_, ?_⟩
    · rw [htp]
      exact hdec.1
    · rw [htp, List.length_drop]
      have h5 : 0 < srcMarker.length := by decide
      have h6 := hdec.2
      omega
    · refine ⟨s.take (k + srcMarker.length), ?_, ?_⟩
      · intro hempty
        have hlen0 : (s.take (k + srcMarker.length)).length = 0 := by rw [hempty]; rfl
        rw [List.length_take] at hlen0
        have h5 : 0 < srcMarker.length := by decide
        have h6 := hdec.2
        omega
      · rw [htp]
        exact (List.take_append_drop (k + srcMarker.length) s).symm

/-- Claim C7 witness: the marker example, via the theorem. -/
theorem c7_trimPath_spec_witness :
    trimPath (("/home/x/src/pkg/file.go").data) = ("pkg/file.go").data :=
  (c7_trimPath_spec (("/home/x/src/pkg/file.go").data)).2.2.2.1

/-- The middle-dot replacement leaves no middle dot behind. -/
theorem replaceMidDot_no_middot (t : GoStr) :
    ∀ c, c ∈ replaceMidDot t → c ≠ middleDot := by
  intro c hc
  unfold replaceMidDot at hc
  rcases List.mem_map.mp hc with ⟨a, _, rfl⟩
  by_cases ha : a = middleDot
  · rw [if_pos ha]
    decide
  · rw [if_neg ha]
    exact ha

/-- Claim C8: functionName splits on the last '.' — module before it,
function after it; with no '.', the module is empty and the function is
the whole input (after middle-dot normalization, which removes every
middle dot from the function part); and the two spec examples. -/
theorem c8_functionName_spec :
    ∀ s : GoStr,
      ((∀ c, c ∈ s → c ≠ '.') → functionName s = ([], replaceMidDot s)) ∧
      (∀ k, stringsLastIndex s (['.']) = some k →
        s = s.take k ++ '.' :: s.drop (k + 1) ∧
        (∀ c, c ∈ s.drop (k + 1) → c ≠ '.') ∧
        functionName s = (s.take k, replaceMidDot (s.drop (k + 1)))) ∧
      (('.' ∈ s) → ∃ k, stringsLastIndex s (['.']) = some k) ∧
      (∀ c, c ∈ (functionName s).2 → c ≠ middleDot) ∧
      functionName (("pkg/sub.Func").data) = (("pkg/sub").data, ("Func").data) ∧
      functionName (("Func").data) = ([], ("Func").data) := by
  intro s
  refine ⟨?_, ?_, stringsLastIndex_single_some s '.', ?_, by decide, by decide⟩
  · intro hnd
    unfold functionName
    rw [stringsLastIndex_single_none s '.' hnd]
  · intro k hk
    have hocc := stringsLastIndex_occ s (['.']) k hk
    have hdec := occ_decomp s (['.']) k (by decide) hocc
    refine ⟨?_, lastIndex_single_no_later s '.' k hk, ?_⟩
    · have h1 := hdec.1
      simpa using h1
    · unfold functionName
      rw [hk]
  · intro c hc
    cases hk : stringsLastIndex s (['.']) with
    | none =>
      simp only [functionName, hk] at hc
      exact replaceMidDot_no_middot s c hc
    | some k =>
      simp only [functionName, hk] at hc
      exact replaceMidDot_no_middot (s.drop (k + 1)) c hc

/-- Claim C8 witness: the qualified-name example, via the theorem. -/
theorem c8_functionName_spec_witness :
    functionName (("pkg/sub.Func").data) = (("pkg/sub").data, ("Func").data) :=
  (c8_functionName_spec (("pkg/sub.Func").data)).2.2.2.2.1

/-- Claim C10: when the trimmed tab-line content holds more than one
colon, the split happens at the last colon — the file path keeps the
interior colons and only the final segment is passed to Atoi. -/
theorem c10_split_at_last_colon :
    ∀ (lines : List GoStr) (i : Nat),
      i < lines.length - 1 →
      (lines.getD (i + 1) []).head? = some '\t' →
      2 ≤ (goTrimSpace (lines.getD (i + 1) [])).count ':' →
      ∃ fp ls, goTrimSpace (lines.getD (i + 1) []) = fp ++ ':' :: ls ∧
        (∀ c, c ∈ ls → c ≠ ':') ∧ ':' ∈ fp ∧
        parsePrintedStackEntry lines i = (i + 1, fp, strconvAtoiVal ls, lines.getD i []) := by
  intro lines i h1 h2 hcount
  have hmem : ':' ∈ goTrimSpace (lines.getD (i + 1) []) := by
    by_contra hn
    rw [List.count_eq_zero.mpr hn] at hcount
    omega
  rcases stringsLastIndex_single_some (goTrimSpace (lines.getD (i + 1) [])) ':' hmem
    with ⟨k, hk⟩
  have hocc := stringsLastIndex_occ (goTrimSpace (lines.getD (i + 1) [])) ([':']) k hk
  have hdec := occ_decomp (goTrimSpace (lines.getD (i + 1) [])) ([':']) k (by decide) hocc
  have hsplit : goTrimSpace (lines.getD (i + 1) []) =
      (goTrimSpace (lines.getD (i + 1) [])).take k ++ ':' ::
        (goTrimSpace (lines.getD (i + 1) [])).drop (k + 1) := by
    have hd1 := hdec.1
    simpa using hd1
  have hnolater := lastIndex_single_no_later (goTrimSpace (lines.getD (i + 1) [])) ':' k hk
  refine ⟨(goTrimSpace (lines.getD (i + 1) [])).take k,
    (goTrimSpace (lines.getD (i + 1) [])).drop (k + 1), hsplit, hnolater, ?_, ?_⟩
  · have hc0 : ((goTrimSpace (lines.getD (i + 1) [])).drop (k + 1)).count ':' = 0 :=
      List.count_eq_zero.mpr (fun hmm => (hnolater ':' hmm) rfl)
    have hsum : (goTrimSpace (lines.getD (i + 1) [])).count ':' =
        ((goTrimSpace (lines.getD (i + 1) [])).take k).count ':' +
        (':' :: (goTrimSpace (lines.getD (i + 1) [])).drop (k + 1)).count ':' := by
      conv_lhs => rw [hsplit]
      rw [List.count_append]
    rw [List.count_cons_self, hc0] at hsum
    have hpos : 0 < ((goTrimSpace (lines.getD (i + 1) [])).take k).count ':' := by omega
    exact List.count_pos_iff.mp hpos
  · exact entry_eq_colon lines i k ⟨h1, h2⟩ hk

/-- Claim C10 witness: the dump line "\t/a:b:7" splits into path "/a:b"
and line number 7. -/
theorem c10_split_at_last_colon_witness :
    ∃ fp ls, goTrimSpace ([("f").data, ("\t/a:b:7").data].getD 1 []) = fp ++ ':' :: ls ∧
      (∀ c, c ∈ ls → c ≠ ':') ∧ ':' ∈ fp ∧
      parsePrintedStackEntry [("f").data, ("\t/a:b:7").data] 0 =
        (1, fp, strconvAtoiVal ls, [("f").data, ("\t/a:b:7").data].getD 0 []) :=
  c10_split_at_last_colon [("f").data, ("\t/a:b:7").data] 0 (by decide) (by decide)
    (by decide)
